import Mathlib

/-!
# Managing AWS credentials on CI/CD: the policy builder and the provisioning driver

A shallow embedding of `main.go`:

* `SetPolicy` renders the group policy document by `fmt.Sprintf` over a fixed
  template with one `%s` directive;
* `main` hands a callback to `pulumi.Run`; the callback resolves the caller
  identity and declares five IAM resources in program order; the engine
  receives the declarations while `pulumi.Run` waits for them.

Go strings are modelled by Lean strings (sequences of Unicode scalar values);
`%s` copies its operand unchanged, so nothing in the embedding depends on the
encoding.
-/

namespace CICD

/-! ## `fmt.Sprintf`, restricted to string operands -/

namespace fmt

/-- Operands that no directive consumed, as `fmt` reports them at the end of the
output: nothing when there is none, else `%!(EXTRA string=a, string=b)`. -/
def extraArgs : List String → List Char
  | [] => []
  | a :: rest =>
    "%!(EXTRA ".toList
      ++ ", ".toList.intercalate ((a :: rest).map fun s => "string=".toList ++ s.toList)
      ++ [')']

/-- The formatting loop of `fmt.Sprintf` for operands that are all strings.
Plain characters are copied; `%%` writes a percent sign; `%s` and `%v` write
the next operand unchanged; a directive with no operand left writes
`%!c(MISSING)`; any other verb character `c` writes the bad-verb form
`%!c(string=operand)`; a format that ends in `%` writes `%!(NOVERB)`. Flags,
width, precision, argument indexes and the verbs `q`, `x`, `X`, `T` are outside
this fragment (the template of `SetPolicy` has the single directive `%s`). -/
def doPrintf : List Char → List String → List Char
  | [], args => extraArgs args
  | c :: rest, args =>
    if c ≠ '%' then c :: doPrintf rest args
    else
      match rest, args with
      | [], args => "%!(NOVERB)".toList ++ extraArgs args
      | v :: rest, [] =>
        if v = '%' then '%' :: doPrintf rest []
        else "%!".toList ++ v :: "(MISSING)".toList ++ doPrintf rest []
      | v :: rest, a :: args =>
        if v = '%' then '%' :: doPrintf rest (a :: args)
        else if v = 's' ∨ v = 'v' then a.toList ++ doPrintf rest args
        else "%!".toList ++ v :: "(string=".toList ++ a.toList ++ ')' :: doPrintf rest args

/-- Embedding of `fmt.Sprintf(format, a...)` with string operands. -/
def Sprintf (format : String) (a : List String) : String :=
  String.mk (doPrintf format.toList a)

end fmt

/-! ## The policy builder -/

/-- The raw string literal of `SetPolicy` (main.go lines 22-34), character for
character: the line breaks and the tab and space indentation of the source
are kept, braces are written as `\x7b` and `\x7d`. -/
def policyTemplate : String :=
  "\x7b\n" ++
  "\t\t\t\t\"Version\": \"2012-10-17\",\n" ++
  "\t\t\t\t\"Statement\": [\n" ++
  "\t\t\t\t  \x7b\n" ++
  "\t\t\t\t\t\"Action\": [\n" ++
  "\t\t\t\t\t  \"sts:AssumeRole\"\n" ++
  "\t\t\t\t\t],\n" ++
  "\t\t\t\t\t\"Effect\": \"Allow\",\n" ++
  "\t\t\t\t\t\"Resource\": \"arn:aws:iam::%s:role/*\",\n" ++
  "\t\t\t\t\t\"Sid\": \"\"\n" ++
  "\t\t\t\t  \x7d\n" ++
  "\t\t\t\t]\n" ++
  "\t\t\t  \x7d"

/-- Embedding of `func SetPolicy(account string) string`. -/
def SetPolicy (account : String) : String :=
  fmt.Sprintf policyTemplate [account]

/-- The part of the template before the `%s` directive. -/
def policyPrefix : String :=
  "\x7b\n" ++
  "\t\t\t\t\"Version\": \"2012-10-17\",\n" ++
  "\t\t\t\t\"Statement\": [\n" ++
  "\t\t\t\t  \x7b\n" ++
  "\t\t\t\t\t\"Action\": [\n" ++
  "\t\t\t\t\t  \"sts:AssumeRole\"\n" ++
  "\t\t\t\t\t],\n" ++
  "\t\t\t\t\t\"Effect\": \"Allow\",\n" ++
  "\t\t\t\t\t\"Resource\": \"arn:aws:iam::"

/-- The part of the template after the `%s` directive. -/
def policySuffix : String :=
  ":role/*\",\n" ++
  "\t\t\t\t\t\"Sid\": \"\"\n" ++
  "\t\t\t\t  \x7d\n" ++
  "\t\t\t\t]\n" ++
  "\t\t\t  \x7d"

/-! ## JSON texts (RFC 8259)

The spec speaks of the output being "valid JSON" and of the fields of the
parsed document. The grammar of RFC 8259 is embedded as a pushdown recogniser
that reads one character at a time and builds the value it has read; a text
is valid JSON exactly when the recogniser accepts it. -/

/-- A JSON value. Numbers keep their lexeme; object members keep the order of
the text. -/
inductive Json where
  | null
  | bool (b : Bool)
  | num (lexeme : String)
  | str (s : String)
  | arr (elems : List Json)
  | obj (members : List (String × Json))

namespace JSON

/-- One item of a string under construction: a character, or a UTF-16
surrogate code unit written as a `\uXXXX` escape. -/
inductive Item where
  | chr (c : Char)
  | sur (u : Nat)

/-- Decoding of the items of a string: a high surrogate followed by a low one
is the character they encode, a surrogate on its own is U+FFFD. -/
def decodeItems : List Item → List Char
  | [] => []
  | .chr c :: rest => c :: decodeItems rest
  | .sur hi :: .sur lo :: rest =>
    if 0xD800 ≤ hi ∧ hi < 0xDC00 ∧ 0xDC00 ≤ lo ∧ lo < 0xE000 then
      Char.ofNat (0x10000 + (hi - 0xD800) * 0x400 + (lo - 0xDC00)) :: decodeItems rest
    else Char.ofNat 0xFFFD :: decodeItems (.sur lo :: rest)
  | .sur _ :: rest => Char.ofNat 0xFFFD :: decodeItems rest

/-- The string whose items, most recent first, are `acc`. -/
def stringOf (acc : List Item) : String :=
  String.mk (decodeItems acc.reverse)

/-- The item of a `\uXXXX` escape with code unit `u`. -/
def unitItem (u : Nat) : Item :=
  if 0xD800 ≤ u ∧ u < 0xE000 then .sur u else .chr (Char.ofNat u)

/-- Value of a hexadecimal digit. -/
def hexVal (c : Char) : Option Nat :=
  if '0' ≤ c ∧ c ≤ '9' then some (c.toNat - '0'.toNat)
  else if 'a' ≤ c ∧ c ≤ 'f' then some (c.toNat - 'a'.toNat + 10)
  else if 'A' ≤ c ∧ c ≤ 'F' then some (c.toNat - 'A'.toNat + 10)
  else none

/-- Insignificant whitespace: space, horizontal tab, line feed, carriage return. -/
def isWs (c : Char) : Bool :=
  c = ' ' ∨ c = '\t' ∨ c = '\n' ∨ c = '\r'

/-- A character that may stand unescaped inside a string: anything but the
quotation mark, the reverse solidus and the control characters below U+0020. -/
def isPlain (c : Char) : Bool :=
  c ≠ '"' ∧ c ≠ '\\' ∧ 0x20 ≤ c.toNat

/-- Where the recogniser is inside a number. -/
inductive NumState where
  | minus | zero | int | dot | frac | exp | expSign | expDigits
  deriving DecidableEq

/-- The positions at which a number may end. -/
def NumState.accepting : NumState → Bool
  | .zero | .int | .frac | .expDigits => true
  | _ => false

/-- Transition inside a number; `none` when `c` cannot continue it. -/
def NumState.next (st : NumState) (c : Char) : Option NumState :=
  match st with
  | .minus => if c = '0' then some .zero else if c.isDigit then some .int else none
  | .zero =>
    if c = '.' then some .dot else if c = 'e' ∨ c = 'E' then some .exp else none
  | .int =>
    if c.isDigit then some .int else if c = '.' then some .dot
    else if c = 'e' ∨ c = 'E' then some .exp else none
  | .dot => if c.isDigit then some .frac else none
  | .frac =>
    if c.isDigit then some .frac else if c = 'e' ∨ c = 'E' then some .exp else none
  | .exp =>
    if c = '+' ∨ c = '-' then some .expSign else if c.isDigit then some .expDigits else none
  | .expSign => if c.isDigit then some .expDigits else none
  | .expDigits => if c.isDigit then some .expDigits else none

/-- An array or object that is still open. Elements and members are kept most
recent first. -/
inductive Frame where
  | arr (elems : List Json)
  | obj (members : List (String × Json))
  | member (members : List (String × Json)) (key : String)

/-- What the recogniser expects next. -/
inductive Mode where
  | value
  | valueOrEnd
  | keyOrEnd
  | key
  | colon (k : String)
  | after
  | done (v : Json)
  | str (isKey : Bool) (acc : List Item)
  | esc (isKey : Bool) (acc : List Item)
  | uni (isKey : Bool) (acc : List Item) (n : Nat) (code : Nat)
  | lit (rest : List Char) (v : Json)
  | num (st : NumState) (acc : List Char)
  | error

/-- State of the recogniser: the mode and the stack of open containers,
innermost first. -/
structure State where
  mode : Mode
  stack : List Frame

/-- The state before the first character. -/
def init : State := ⟨.value, []⟩

/-- The rejecting sink. -/
def failed : State := ⟨.error, []⟩

/-- A value `v` has just been read in the context `stack`. -/
def complete (v : Json) : List Frame → State
  | [] => ⟨.done v, []⟩
  | .arr es :: fs => ⟨.after, .arr (v :: es) :: fs⟩
  | .member ms k :: fs => ⟨.after, .obj ((k, v) :: ms) :: fs⟩
  | .obj _ :: _ => failed

/-- First character of a value. -/
def startValue (stack : List Frame) (c : Char) : State :=
  if c = '\x7b' then ⟨.keyOrEnd, .obj [] :: stack⟩
  else if c = '[' then ⟨.valueOrEnd, .arr [] :: stack⟩
  else if c = '"' then ⟨.str false [], stack⟩
  else if c = 't' then ⟨.lit ['r', 'u', 'e'] (.bool true), stack⟩
  else if c = 'f' then ⟨.lit ['a', 'l', 's', 'e'] (.bool false), stack⟩
  else if c = 'n' then ⟨.lit ['u', 'l', 'l'] .null, stack⟩
  else if c = '-' then ⟨.num .minus [c], stack⟩
  else if c = '0' then ⟨.num .zero [c], stack⟩
  else if c.isDigit then ⟨.num .int [c], stack⟩
  else failed

/-- A character after a complete value: a separator, the end of the enclosing
container, or whitespace. -/
def stepAfter (s : State) (c : Char) : State :=
  if isWs c then s
  else
    match s.mode, s.stack with
    | .after, .arr es :: fs =>
      if c = ',' then ⟨.value, .arr es :: fs⟩
      else if c = ']' then complete (.arr es.reverse) fs
      else failed
    | .after, .obj ms :: fs =>
      if c = ',' then ⟨.key, .obj ms :: fs⟩
      else if c = '\x7d' then complete (.obj ms.reverse) fs
      else failed
    | _, _ => failed

/-- The closing quotation mark of a string: a key waits for its colon, any
other string is a value. -/
def endString (isKey : Bool) (acc : List Item) (stack : List Frame) : State :=
  if isKey then ⟨.colon (stringOf acc), stack⟩
  else complete (.str (stringOf acc)) stack

/-- One character of input. -/
def step (s : State) (c : Char) : State :=
  match s.mode with
  | .value => if isWs c then s else startValue s.stack c
  | .valueOrEnd =>
    if isWs c then s
    else if c = ']' then
      match s.stack with
      | .arr es :: fs => complete (.arr es.reverse) fs
      | _ => failed
    else startValue s.stack c
  | .keyOrEnd =>
    if isWs c then s
    else if c = '"' then ⟨.str true [], s.stack⟩
    else if c = '\x7d' then
      match s.stack with
      | .obj ms :: fs => complete (.obj ms.reverse) fs
      | _ => failed
    else failed
  | .key =>
    if isWs c then s
    else if c = '"' then ⟨.str true [], s.stack⟩
    else failed
  | .colon k =>
    if isWs c then s
    else if c = ':' then
      match s.stack with
      | .obj ms :: fs => ⟨.value, .member ms k :: fs⟩
      | _ => failed
    else failed
  | .after => stepAfter s c
  | .done _ => if isWs c then s else failed
  | .str isKey acc =>
    if c = '"' then endString isKey acc s.stack
    else if c = '\\' then ⟨.esc isKey acc, s.stack⟩
    else if isPlain c then ⟨.str isKey (.chr c :: acc), s.stack⟩
    else failed
  | .esc isKey acc =>
    if c = '"' ∨ c = '\\' ∨ c = '/' then ⟨.str isKey (.chr c :: acc), s.stack⟩
    else if c = 'b' then ⟨.str isKey (.chr (Char.ofNat 8) :: acc), s.stack⟩
    else if c = 'f' then ⟨.str isKey (.chr (Char.ofNat 12) :: acc), s.stack⟩
    else if c = 'n' then ⟨.str isKey (.chr '\n' :: acc), s.stack⟩
    else if c = 'r' then ⟨.str isKey (.chr '\r' :: acc), s.stack⟩
    else if c = 't' then ⟨.str isKey (.chr '\t' :: acc), s.stack⟩
    else if c = 'u' then ⟨.uni isKey acc 0 0, s.stack⟩
    else failed
  | .uni isKey acc n code =>
    match hexVal c with
    | none => failed
    | some d =>
      if n = 3 then ⟨.str isKey (unitItem (code * 16 + d) :: acc), s.stack⟩
      else ⟨.uni isKey acc (n + 1) (code * 16 + d), s.stack⟩
  | .lit rest v =>
    match rest with
    | [] => failed
    | r :: rs =>
      if c ≠ r then failed
      else if rs.isEmpty then complete v s.stack
      else ⟨.lit rs v, s.stack⟩
  | .num st acc =>
    match st.next c with
    | some st' => ⟨.num st' (c :: acc), s.stack⟩
    | none =>
      if st.accepting then stepAfter (complete (.num (String.mk acc.reverse)) s.stack) c
      else failed
  | .error => failed

/-- The value read when the input ends in state `s`, if the input was a
complete JSON text. -/
def finish (s : State) : Option Json :=
  match s.mode, s.stack with
  | .done v, [] => some v
  | .num st acc, [] => if st.accepting then some (.num (String.mk acc.reverse)) else none
  | _, _ => none

/-- Run of the recogniser over a character sequence. -/
def run (s : State) (cs : List Char) : State :=
  cs.foldl step s

/-- The value a JSON text denotes; `none` when the text is not valid JSON. -/
def parse (text : String) : Option Json :=
  finish (run init text.toList)

/-- Syntactic validity of a JSON text. -/
def valid (text : String) : Bool :=
  (parse text).isSome

end JSON


/-! ## The provisioning engine boundary

`main.go` talks to the Pulumi engine through one invoke
(`aws.GetCallerIdentity`) and five resource registrations (`iam.New...`).

* The invoke is synchronous: the engine answers before the call returns, and
  the call returns the engine's error.
* A registration is asynchronous: `ctx.RegisterResource` starts the request and
  returns `nil` at once. The request waits until the registrations whose
  outputs it takes as inputs have settled; it is sent to the engine when all
  of them were accepted, and abandoned without being sent when one of them was
  not. The engine's answer to a registration never reaches the `iam.New...`
  call: `pulumi.Run` sees it when it waits for the outstanding requests.
* The order in which outstanding requests get to run is not in the hands of
  the program: it is part of the environment, like the engine's answers.

The engine is a parameter of the embedding; it may answer each request with
success or with an error, depending on everything it received before. -/

/-- The kinds of IAM resource the program declares. -/
inductive Kind where
  | User | AccessKey | Group | GroupMembership | GroupPolicy
  deriving DecidableEq, Repr

/-- A declared resource, identified by its kind and its logical name (the
second argument of `iam.New...`). -/
structure Resource where
  kind : Kind
  name : String
  deriving DecidableEq, Repr

namespace pulumi

/-- A string-valued input of a resource: the literal `pulumi.String(s)`, or an
output property of a declared resource (such as `lbUser.Name`), which carries
the dependency on that resource. -/
inductive StringInput where
  | String (s : String)
  | output (resource : Resource) (property : String)
  deriving DecidableEq, Repr

/-- The resource an input depends on, if any. -/
def StringInput.resource? : StringInput → Option Resource
  | .String _ => none
  | .output r _ => some r

end pulumi

namespace aws

/-- Result of `aws.GetCallerIdentity`; `AccountId` is the one field `main.go` reads. -/
structure GetCallerIdentityResult where
  AccountId : String
  deriving DecidableEq, Repr

end aws

namespace iam

/-- The fields of `iam.UserArgs` that `main.go` sets. -/
structure UserArgs where
  Name : pulumi.StringInput
  Path : pulumi.StringInput
  Tags : List (String × pulumi.StringInput)
  deriving DecidableEq, Repr

/-- The field of `iam.AccessKeyArgs` that `main.go` sets. -/
structure AccessKeyArgs where
  User : pulumi.StringInput
  deriving DecidableEq, Repr

/-- The field of `iam.GroupArgs` that `main.go` sets. -/
structure GroupArgs where
  Name : pulumi.StringInput
  deriving DecidableEq, Repr

/-- The fields of `iam.GroupMembershipArgs` that `main.go` sets. -/
structure GroupMembershipArgs where
  Group : pulumi.StringInput
  Name : pulumi.StringInput
  Users : List pulumi.StringInput
  deriving DecidableEq, Repr

/-- The fields of `iam.GroupPolicyArgs` that `main.go` sets. -/
structure GroupPolicyArgs where
  Group : pulumi.StringInput
  Name : pulumi.StringInput
  Policy : pulumi.StringInput
  deriving DecidableEq, Repr

/-- Handle of a declared user, as returned by `iam.NewUser`. -/
structure User where
  resource : Resource
  deriving DecidableEq, Repr

/-- The output `lbUser.Name`. -/
def User.Name (u : User) : pulumi.StringInput :=
  .output u.resource "name"

/-- Handle of a declared access key. -/
structure AccessKey where
  resource : Resource
  deriving DecidableEq, Repr

/-- Handle of a declared group, as returned by `iam.NewGroup`. -/
structure Group where
  resource : Resource
  deriving DecidableEq, Repr

/-- The output `grp.Name`. -/
def Group.Name (g : Group) : pulumi.StringInput :=
  .output g.resource "name"

/-- Handle of a declared group membership. -/
structure GroupMembership where
  resource : Resource
  deriving DecidableEq, Repr

/-- Handle of a declared group policy. -/
structure GroupPolicy where
  resource : Resource
  deriving DecidableEq, Repr

end iam

/-- A resource declaration as submitted to the engine: the logical name and the
arguments of one `iam.New...` call. -/
inductive Declaration where
  | User (name : String) (args : iam.UserArgs)
  | AccessKey (name : String) (args : iam.AccessKeyArgs)
  | Group (name : String) (args : iam.GroupArgs)
  | GroupMembership (name : String) (args : iam.GroupMembershipArgs)
  | GroupPolicy (name : String) (args : iam.GroupPolicyArgs)
  deriving DecidableEq, Repr

/-- The resource a declaration declares. -/
def Declaration.resource : Declaration → Resource
  | .User n _ => ⟨.User, n⟩
  | .AccessKey n _ => ⟨.AccessKey, n⟩
  | .Group n _ => ⟨.Group, n⟩
  | .GroupMembership n _ => ⟨.GroupMembership, n⟩
  | .GroupPolicy n _ => ⟨.GroupPolicy, n⟩

/-- The kind of resource a declaration declares. -/
def Declaration.kind (d : Declaration) : Kind :=
  d.resource.kind

/-- The string inputs of a declaration. -/
def Declaration.inputs : Declaration → List pulumi.StringInput
  | .User _ a => a.Name :: a.Path :: a.Tags.map Prod.snd
  | .AccessKey _ a => [a.User]
  | .Group _ a => [a.Name]
  | .GroupMembership _ a => a.Group :: a.Name :: a.Users
  | .GroupPolicy _ a => [a.Group, a.Name, a.Policy]

/-- The resources a declaration references through its inputs. -/
def Declaration.references (d : Declaration) : List Resource :=
  d.inputs.filterMap pulumi.StringInput.resource?

/-- One call, with its answer: the identity invoke with its result, or the
registration of a declaration with the error it was answered with (`none` for
success). -/
inductive Event (ε : Type) where
  | invoke (result : Except ε aws.GetCallerIdentityResult)
  | register (d : Declaration) (failure : Option ε)

/-- The declaration an event submitted, if it is a registration. -/
def Event.declaration? {ε : Type} : Event ε → Option Declaration
  | .invoke _ => none
  | .register d _ => some d

/-- The event is a registration that was answered with an error. -/
def Event.rejected {ε : Type} : Event ε → Bool
  | .register _ (some _) => true
  | _ => false

/-- The declarations submitted in a trace, in order. -/
def declarations {ε : Type} (trace : List (Event ε)) : List Declaration :=
  trace.filterMap Event.declaration?

/-- The resource `r` was registered with success in `log`. -/
def accepted {ε : Type} (log : List (Event ε)) (r : Resource) : Bool :=
  log.any fun ev =>
    match ev with
    | .register d none => decide (d.resource = r)
    | _ => false

/-- The environment of a run: the engine's answer to the identity invoke and to
a registration, given the requests it received so far with its answers, and
the order in which the outstanding registrations get to run, as positions in
the program order of the registrations. A position whose registration has
settled, or still waits for an input, is passed over; what the schedule leaves
unsettled runs in program order. -/
structure Engine (ε : Type) where
  getCallerIdentity : List (Event ε) → Except ε aws.GetCallerIdentityResult
  registerResource : List (Event ε) → Declaration → Option ε
  schedule : List Nat := []

namespace pulumi

/-- The run context `*pulumi.Context`: `trace` is the calls the program made,
in program order, each with what it returned to the program; `log` is the
requests the engine received so far, each with the engine's answer. -/
structure Context (ε : Type) where
  trace : List (Event ε)
  log : List (Event ε)

/-- Embedding of `ctx.RegisterResource` as the `iam.New...` constructors call
it: the request is started and the call returns `nil` with the handle; the
engine has not been asked yet. The checks the call makes before it starts the
request (a type and a name that are not empty, arguments held in a struct)
pass for each of the five calls of `main.go`. -/
def Context.RegisterResource {ε α : Type} (ctx : Context ε)
    (d : Declaration) (handle : Resource → α) : Except ε α × Context ε :=
  (.ok (handle d.resource), ⟨ctx.trace ++ [.register d none], ctx.log⟩)

/-- The outstanding registrations while `pulumi.Run` waits: what the engine
received so far, and the registrations abandoned because an input of theirs
did not resolve. -/
structure Settlement (ε : Type) where
  log : List (Event ε)
  withheld : List Declaration

/-- The registration of `d` is over: it was sent to the engine, or abandoned. -/
def Settlement.settled {ε : Type} (st : Settlement ε) (d : Declaration) : Bool :=
  decide (d ∈ declarations st.log) || decide (d ∈ st.withheld)

/-- Every registration whose output `d` takes as an input is over, so the
request for `d` no longer waits. -/
def Settlement.ready {ε : Type} (calls : List Declaration) (st : Settlement ε)
    (d : Declaration) : Bool :=
  d.references.all fun r => calls.all fun d' => decide (d'.resource ≠ r) || st.settled d'

/-- The request for `d` runs: it is sent to the engine, which answers, when all
the resources `d` references were accepted; else it is abandoned. -/
def Settlement.deliver {ε : Type} (E : Engine ε) (st : Settlement ε) (d : Declaration) :
    Settlement ε :=
  if d.references.all (accepted st.log) then
    ⟨st.log ++ [.register d (E.registerResource st.log d)], st.withheld⟩
  else ⟨st.log, st.withheld ++ [d]⟩

/-- The request for `d` gets its turn: it runs if it is outstanding and no
longer waits. -/
def Settlement.attempt {ε : Type} (E : Engine ε) (calls : List Declaration)
    (st : Settlement ε) (d : Declaration) : Settlement ε :=
  if st.settled d = false ∧ st.ready calls d = true then st.deliver E d else st

/-- The requests get their turns in the order `picks`. -/
def Settlement.run {ε : Type} (E : Engine ε) (calls : List Declaration)
    (st : Settlement ε) (picks : List Declaration) : Settlement ε :=
  picks.foldl (Settlement.attempt E calls) st

/-- The turns of a run: those of the schedule, then one for each registration
in program order. -/
def turns {ε : Type} (E : Engine ε) (calls : List Declaration) : List Declaration :=
  E.schedule.filterMap (fun i => calls[i]?) ++ calls

/-- Embedding of the wait of `pulumi.Run` for the outstanding registrations
`calls` (in program order), the engine having received `log` so far. -/
def waitForRPCs {ε : Type} (E : Engine ε) (calls : List Declaration) (log : List (Event ε)) :
    Settlement ε :=
  Settlement.run E calls ⟨log, []⟩ (turns E calls)

/-- What holds of the outstanding registrations `calls` at every moment of the
wait: only registrations of the program are sent or abandoned, none is sent
twice, each was sent after the resources it references were accepted and was
answered by the engine, and each abandoned one references a resource that was
not accepted and whose registration is over. -/
structure Settlement.Sound {ε : Type} (E : Engine ε) (calls : List Declaration)
    (st : Settlement ε) : Prop where
  sent_mem : ∀ d ∈ declarations st.log, d ∈ calls
  nodup : (declarations st.log).Nodup
  awaited : ∀ i d f, st.log[i]? = some (.register d f) →
    ∀ r ∈ d.references, accepted (st.log.take i) r = true
  faithful : ∀ i d f, st.log[i]? = some (.register d f) →
    f = E.registerResource (st.log.take i) d
  justified : ∀ d ∈ st.withheld, d ∈ calls ∧ ∃ r ∈ d.references,
    accepted st.log r = false ∧ ∀ d' ∈ calls, d'.resource = r → st.settled d' = true

end pulumi

/-- Embedding of `aws.GetCallerIdentity(ctx, nil, nil)`: the engine is asked and
its answer is returned. -/
def aws.GetCallerIdentity {ε : Type} (E : Engine ε) (ctx : pulumi.Context ε) :
    Except ε aws.GetCallerIdentityResult × pulumi.Context ε :=
  let result := E.getCallerIdentity ctx.log
  (result, ⟨ctx.trace ++ [.invoke result], ctx.log ++ [.invoke result]⟩)

/-- Embedding of `iam.NewUser(ctx, name, args)`. -/
def iam.NewUser {ε : Type} (ctx : pulumi.Context ε) (name : String)
    (args : iam.UserArgs) : Except ε iam.User × pulumi.Context ε :=
  ctx.RegisterResource (.User name args) iam.User.mk

/-- Embedding of `iam.NewAccessKey(ctx, name, args)`. -/
def iam.NewAccessKey {ε : Type} (ctx : pulumi.Context ε) (name : String)
    (args : iam.AccessKeyArgs) : Except ε iam.AccessKey × pulumi.Context ε :=
  ctx.RegisterResource (.AccessKey name args) iam.AccessKey.mk

/-- Embedding of `iam.NewGroup(ctx, name, args)`. -/
def iam.NewGroup {ε : Type} (ctx : pulumi.Context ε) (name : String)
    (args : iam.GroupArgs) : Except ε iam.Group × pulumi.Context ε :=
  ctx.RegisterResource (.Group name args) iam.Group.mk

/-- Embedding of `iam.NewGroupMembership(ctx, name, args)`. -/
def iam.NewGroupMembership {ε : Type} (ctx : pulumi.Context ε) (name : String)
    (args : iam.GroupMembershipArgs) : Except ε iam.GroupMembership × pulumi.Context ε :=
  ctx.RegisterResource (.GroupMembership name args) iam.GroupMembership.mk

/-- Embedding of `iam.NewGroupPolicy(ctx, name, args)`. -/
def iam.NewGroupPolicy {ε : Type} (ctx : pulumi.Context ε) (name : String)
    (args : iam.GroupPolicyArgs) : Except ε iam.GroupPolicy × pulumi.Context ε :=
  ctx.RegisterResource (.GroupPolicy name args) iam.GroupPolicy.mk

/-! ## The provisioning driver -/

/-- The function `main` passes to `pulumi.Run` (main.go lines 38-92). It
returns the Go `error` (`none` for `nil`) and the context it leaves behind. -/
def body {ε : Type} (E : Engine ε) (ctx : pulumi.Context ε) : Option ε × pulumi.Context ε :=
  -- current, err := aws.GetCallerIdentity(ctx, nil, nil); if err != nil return err
  match aws.GetCallerIdentity E ctx with
  | (.error err, ctx) => (some err, ctx)
  | (.ok current, ctx) =>
  -- lbUser, err := iam.NewUser(...); if err != nil return err
  match iam.NewUser ctx "lbUser"
      { Name := .String "Jenkins-pulumi-bot"
        Path := .String "/system/"
        Tags := [("purpose", .String "Account used to perform Pulumi stack updates on CI/CD.")] } with
  | (.error err, ctx) => (some err, ctx)
  | (.ok lbUser, ctx) =>
  -- _, err = iam.NewAccessKey(...); if err != nil return err
  match iam.NewAccessKey ctx "lbAccessKey" { User := lbUser.Name } with
  | (.error err, ctx) => (some err, ctx)
  | (.ok _, ctx) =>
  -- grp, err := iam.NewGroup(...); if err != nil return err
  match iam.NewGroup ctx "pulumiStackUpdaters" { Name := .String "pulumiStackUpdaters" } with
  | (.error err, ctx) => (some err, ctx)
  | (.ok grp, ctx) =>
  -- _, err = iam.NewGroupMembership(...): the result is not looked at
  match iam.NewGroupMembership ctx "cicdUserMembership"
      { Group := grp.Name
        Name := .String "cicdUserMembership"
        Users := [lbUser.Name] } with
  | (_, ctx) =>
  let pol := SetPolicy current.AccountId
  -- _, err = iam.NewGroupPolicy(...): the result is not looked at
  match iam.NewGroupPolicy ctx "pulumiStackUpdatersPolicy"
      { Group := grp.Name
        Name := .String "pulumiStackUpdatersPolicy"
        Policy := .String pol } with
  | (_, ctx) =>
  -- return nil
  (none, ctx)

/-- What a run leaves behind: the error the callback returned; the calls the
callback made, in program order, with what they returned; the requests the
engine received, in the order it received them, with its answers; and the
registrations that were abandoned without being sent. -/
structure RunResult (ε : Type) where
  err : Option ε
  trace : List (Event ε)
  received : List (Event ε)
  withheld : List Declaration

/-- The run ends in failure: the callback returned an error, or a registration
was rejected by the engine or abandoned, which `pulumi.Run` finds when it has
waited for the outstanding requests. -/
def RunResult.failed {ε : Type} (r : RunResult ε) : Bool :=
  r.err.isSome || r.received.any Event.rejected || !r.withheld.isEmpty

/-- Embedding of `pulumi.Run(body)`: the callback runs once, in a fresh
context, and the run then waits for the registrations it started. Nothing the
callback does after a registration depends on the engine, so it is no
restriction that the engine receives the registrations during the wait. The
root stack resource, which `pulumi.Run` registers itself, is left out. -/
def pulumi.Run {ε : Type} (E : Engine ε)
    (body : Engine ε → pulumi.Context ε → Option ε × pulumi.Context ε) : RunResult ε :=
  match body E ⟨[], []⟩ with
  | (err, ctx) =>
    let st := pulumi.waitForRPCs E (declarations ctx.trace) ctx.log
    ⟨err, ctx.trace, st.log, st.withheld⟩

/-- Embedding of `func main()`, run in the environment `E`. -/
def main {ε : Type} (E : Engine ε) : RunResult ε :=
  pulumi.Run E body

/-! ## Named declarations and sample engines -/

/-- The declaration of the CI/CD user (main.go lines 47-53). -/
def lbUserDecl : Declaration :=
  .User "lbUser"
    { Name := .String "Jenkins-pulumi-bot"
      Path := .String "/system/"
      Tags := [("purpose", .String "Account used to perform Pulumi stack updates on CI/CD.")] }

/-- The declaration of the access key (main.go lines 59-61). -/
def lbAccessKeyDecl : Declaration :=
  .AccessKey "lbAccessKey" { User := .output ⟨.User, "lbUser"⟩ "name" }

/-- The declaration of the group (main.go lines 67-69). -/
def pulumiStackUpdatersDecl : Declaration :=
  .Group "pulumiStackUpdaters" { Name := .String "pulumiStackUpdaters" }

/-- The declaration of the group membership (main.go lines 75-81). -/
def cicdUserMembershipDecl : Declaration :=
  .GroupMembership "cicdUserMembership"
    { Group := .output ⟨.Group, "pulumiStackUpdaters"⟩ "name"
      Name := .String "cicdUserMembership"
      Users := [.output ⟨.User, "lbUser"⟩ "name"] }

/-- The declaration of the group policy for the account `A` (main.go lines 84-89). -/
def pulumiStackUpdatersPolicyDecl (A : String) : Declaration :=
  .GroupPolicy "pulumiStackUpdatersPolicy"
    { Group := .output ⟨.Group, "pulumiStackUpdaters"⟩ "name"
      Name := .String "pulumiStackUpdatersPolicy"
      Policy := .String (SetPolicy A) }

/-- The declarations of the program for the account `A`, in program order. -/
def programCalls (A : String) : List Declaration :=
  [lbUserDecl, lbAccessKeyDecl, pulumiStackUpdatersDecl, cicdUserMembershipDecl,
   pulumiStackUpdatersPolicyDecl A]

/-- An engine that resolves the identity to account `A` and answers each
registration by `answer`, whatever it received before; the registrations run
in program order. -/
def constEngine (A : String) (answer : Declaration → Option String) : Engine String where
  getCallerIdentity := fun _ => .ok ⟨A⟩
  registerResource := fun _ d => answer d

/-- An engine that accepts every declaration. -/
def acceptAll (A : String) : Engine String :=
  constEngine A fun _ => none

/-- An engine whose identity resolution fails, and that would accept every
declaration. -/
def noIdentity : Engine String where
  getCallerIdentity := fun _ => .error "no credentials"
  registerResource := fun _ _ => none

/-- The state of the recogniser after the part of the template before `%s`:
inside the string that is the value of `"Resource"`, in the only statement of
the `"Statement"` array. -/
def afterPrefix : JSON.State :=
  ⟨.str false ("arn:aws:iam::".toList.reverse.map JSON.Item.chr),
   [.member [("Effect", .str "Allow"), ("Action", .arr [.str "sts:AssumeRole"])] "Resource",
    .arr [],
    .member [("Version", .str "2012-10-17")] "Statement"]⟩

/-! ## Facts about the recogniser and the policy text -/

set_option maxRecDepth 100000 in
/-- The formatting loop copies the template up to `%s`, writes the account in
place of the directive, and copies the rest. -/
theorem SetPolicy_toList (A : String) :
    (SetPolicy A).toList = policyPrefix.toList ++ (A.toList ++ policySuffix.toList) := by
  rfl

namespace JSON

set_option maxRecDepth 100000 in
/-- The recogniser on sample texts: scalars, nesting, escapes and whitespace
are accepted; leading zeros, trailing commas, missing colons, unescaped control
characters, unknown escapes, truncated and trailing input are rejected. -/
theorem valid_samples :
    valid "[1, -0.5e+10, true, false, null, \"a\\u00e9\\n\", \x7b\x7d, [], \x7b\"a\": [\x7b\"b\": 1\x7d]\x7d] " = true ∧
    valid " \"top\" " = true ∧ valid "-12.50E-3" = true ∧
    valid "" = false ∧ valid "01" = false ∧ valid "-" = false ∧ valid "1." = false ∧
    valid "[1,]" = false ∧ valid "[1 2]" = false ∧ valid "\x7b\"a\" 1\x7d" = false ∧
    valid "\x7b\"a\":1,\x7d" = false ∧ valid "\x7ba:1\x7d" = false ∧
    valid "\"a\nb\"" = false ∧ valid "\"\\x\"" = false ∧ valid "\"a" = false ∧
    valid "tru" = false ∧ valid "true false" = false ∧ valid "[[]" = false ∧
    valid "[]]" = false := by
  decide

/-- A run over a concatenation is the run over its second part from the state
reached on the first. -/
theorem run_append (s : State) (xs ys : List Char) :
    run s (xs ++ ys) = run (run s xs) ys := by
  simp [run, List.foldl_append]

/-- Items that are all characters decode to those characters. -/
theorem decodeItems_chr (cs : List Char) : decodeItems (cs.map Item.chr) = cs := by
  induction cs with
  | nil => rfl
  | cons c cs ih => simp [decodeItems, ih]

/-- Inside a string, plain characters are appended to the string and leave the
stack alone. -/
theorem run_str_plain (cs : List Char) (h : ∀ c ∈ cs, isPlain c = true)
    (isKey : Bool) (acc : List Item) (stack : List Frame) :
    run ⟨.str isKey acc, stack⟩ cs = ⟨.str isKey (cs.reverse.map Item.chr ++ acc), stack⟩ := by
  induction cs generalizing acc with
  | nil => rfl
  | cons c cs ih =>
    have hc : isPlain c = true := h c (List.mem_cons_self _ _)
    have hc' := hc
    simp only [isPlain, decide_eq_true_eq] at hc'
    have hstep : step ⟨.str isKey acc, stack⟩ c = ⟨.str isKey (.chr c :: acc), stack⟩ := by
      simp [step, hc'.1, hc'.2.1, hc]
    have := ih (fun d hd => h d (List.mem_cons_of_mem _ hd)) (.chr c :: acc)
    simp only [run, List.foldl_cons] at this ⊢
    rw [hstep, this]
    simp

end JSON


set_option maxRecDepth 100000 in
/-- The recogniser reads the template up to `%s` and is then inside the
`"Resource"` string. -/
theorem run_policyPrefix : JSON.run JSON.init policyPrefix.toList = afterPrefix := by
  rfl

set_option maxRecDepth 100000 in
/-- From inside the `"Resource"` string, whatever it holds so far, the rest of
the template closes the string, the statement, the array and the document. -/
theorem finish_policySuffix (r : List JSON.Item) :
    JSON.finish (JSON.run ⟨.str false r, afterPrefix.stack⟩ policySuffix.toList) =
      some (Json.obj [("Version", .str "2012-10-17"),
        ("Statement", .arr [.obj [("Action", .arr [.str "sts:AssumeRole"]),
          ("Effect", .str "Allow"),
          ("Resource", .str (JSON.stringOf (":role/*".toList.reverse.map JSON.Item.chr ++ r))),
          ("Sid", .str "")]])]) := by
  simp [policySuffix, afterPrefix, JSON.run, JSON.step, JSON.isPlain, JSON.isWs, JSON.endString,
    JSON.complete, JSON.stepAfter, JSON.startValue, JSON.finish, JSON.stringOf, JSON.decodeItems]


/-- A decimal digit may stand unescaped in a JSON string. -/
theorem isPlain_of_isDigit (c : Char) (h : c.isDigit = true) : JSON.isPlain c = true := by
  simp only [Char.isDigit, Bool.and_eq_true, decide_eq_true_eq] at h
  have h48 : 48 ≤ c.toNat := h.1
  have h57 : c.toNat ≤ 57 := h.2
  simp only [JSON.isPlain, decide_eq_true_eq]
  refine ⟨?_, ?_, by omega⟩
  · rintro rfl
    exact absurd h48 (by decide)
  · rintro rfl
    exact absurd h57 (by decide)

/-- The policy text of an account whose characters may all stand unescaped in
a JSON string is a JSON text, and this is the document it denotes. -/
theorem parse_SetPolicy_of_plain (A : String) (h : ∀ c ∈ A.toList, JSON.isPlain c = true) :
    JSON.parse (SetPolicy A) =
      some (Json.obj [("Version", .str "2012-10-17"),
        ("Statement", .arr [.obj [("Action", .arr [.str "sts:AssumeRole"]),
          ("Effect", .str "Allow"),
          ("Resource", .str ("arn:aws:iam::" ++ A ++ ":role/*")),
          ("Sid", .str "")]])]) := by
  have hstr : JSON.stringOf (":role/*".toList.reverse.map JSON.Item.chr ++
      (A.toList.reverse.map JSON.Item.chr ++ "arn:aws:iam::".toList.reverse.map JSON.Item.chr)) =
      "arn:aws:iam::" ++ A ++ ":role/*" := by
    have : ":role/*".toList.reverse.map JSON.Item.chr ++
        (A.toList.reverse.map JSON.Item.chr ++ "arn:aws:iam::".toList.reverse.map JSON.Item.chr) =
        (("arn:aws:iam::".toList ++ (A.toList ++ ":role/*".toList)).map JSON.Item.chr).reverse := by
      simp only [List.map_append, List.reverse_append, List.map_reverse, List.append_assoc]
    rw [JSON.stringOf, this, List.reverse_reverse, JSON.decodeItems_chr]
    apply String.ext
    simp [String.toList]
  rw [JSON.parse, SetPolicy_toList, JSON.run_append, JSON.run_append, run_policyPrefix, afterPrefix,
    JSON.run_str_plain _ h]
  have := finish_policySuffix
    (A.toList.reverse.map JSON.Item.chr ++ "arn:aws:iam::".toList.reverse.map JSON.Item.chr)
  rw [hstr] at this
  exact this

/-! ## The claims about the policy builder -/

/-- C1: for every non-empty string `A` of decimal digits, `SetPolicy A` is
valid JSON and parses to an object whose `"Version"` is `"2012-10-17"` and
whose `"Statement"` array holds exactly one statement, with `"Action"` the
one-element list `["sts:AssumeRole"]`, `"Effect"` equal to `"Allow"`,
`"Resource"` equal to `"arn:aws:iam::" ++ A ++ ":role/*"` and `"Sid"` the empty
string. -/
theorem SetPolicy_decimal_account (A : String) (_hne : A ≠ "")
    (hdigits : ∀ c ∈ A.toList, c.isDigit = true) :
    JSON.valid (SetPolicy A) = true ∧
    JSON.parse (SetPolicy A) =
      some (Json.obj [("Version", .str "2012-10-17"),
        ("Statement", .arr [.obj [("Action", .arr [.str "sts:AssumeRole"]),
          ("Effect", .str "Allow"),
          ("Resource", .str ("arn:aws:iam::" ++ A ++ ":role/*")),
          ("Sid", .str "")]])]) := by
  have hparse := parse_SetPolicy_of_plain A fun c hc => isPlain_of_isDigit c (hdigits c hc)
  exact ⟨by rw [JSON.valid, hparse]; rfl, hparse⟩

/-- Witness of C1 at the account `"123456789012"`: the `"Resource"` field is
`"arn:aws:iam::123456789012:role/*"`. -/
theorem SetPolicy_decimal_account_witness :
    "123456789012" ≠ "" ∧ (∀ c ∈ "123456789012".toList, c.isDigit = true) ∧
    JSON.valid (SetPolicy "123456789012") = true ∧
    JSON.parse (SetPolicy "123456789012") =
      some (Json.obj [("Version", .str "2012-10-17"),
        ("Statement", .arr [.obj [("Action", .arr [.str "sts:AssumeRole"]),
          ("Effect", .str "Allow"),
          ("Resource", .str "arn:aws:iam::123456789012:role/*"),
          ("Sid", .str "")]])]) :=
  ⟨by decide, by decide,
    (SetPolicy_decimal_account "123456789012" (by decide) (by decide)).1,
    (SetPolicy_decimal_account "123456789012" (by decide) (by decide)).2⟩

set_option maxRecDepth 100000 in
/-- C2, as stated, fails: for the identifiers `"`, `\` and line feed the output
of `SetPolicy` is not valid JSON. -/
theorem SetPolicy_malformed_account_invalid :
    JSON.valid (SetPolicy "\"") = false ∧ JSON.valid (SetPolicy "\\") = false ∧
    JSON.valid (SetPolicy "\n") = false := by
  decide

/-- C2, amended: for every identifier without a quotation mark, a reverse
solidus or a control character below U+0020, digits or not, `SetPolicy` returns
a valid JSON document, whose `"Resource"` is `"arn:aws:iam::" ++ A ++ ":role/*"`. -/
theorem SetPolicy_plain_account_valid (A : String)
    (hplain : ∀ c ∈ A.toList, c ≠ '"' ∧ c ≠ '\\' ∧ 0x20 ≤ c.toNat) :
    JSON.valid (SetPolicy A) = true ∧
    JSON.parse (SetPolicy A) =
      some (Json.obj [("Version", .str "2012-10-17"),
        ("Statement", .arr [.obj [("Action", .arr [.str "sts:AssumeRole"]),
          ("Effect", .str "Allow"),
          ("Resource", .str ("arn:aws:iam::" ++ A ++ ":role/*")),
          ("Sid", .str "")]])]) := by
  have hparse := parse_SetPolicy_of_plain A fun c hc => by
    simpa [JSON.isPlain] using hplain c hc
  exact ⟨by rw [JSON.valid, hparse]; rfl, hparse⟩

/-- Witness of the amended C2 at an identifier that is not an account number. -/
theorem SetPolicy_plain_account_valid_witness :
    (∀ c ∈ "not an account".toList, c ≠ '"' ∧ c ≠ '\\' ∧ 0x20 ≤ c.toNat) ∧
    JSON.valid (SetPolicy "not an account") = true :=
  ⟨by decide, (SetPolicy_plain_account_valid "not an account" (by decide)).1⟩

/-- C3: the result of `SetPolicy` is a fixed prefix, followed by the account
string, followed by a fixed suffix; it depends on nothing but the account, so
two calls with the same account return the same string. -/
theorem SetPolicy_deterministic (A : String) :
    SetPolicy A = policyPrefix ++ A ++ policySuffix := by
  apply String.ext
  rw [← String.toList, SetPolicy_toList]
  simp [String.toList]


/-! ## The wait for the outstanding registrations -/

/-- The declarations of a log that grew by one registration. -/
theorem declarations_snoc {ε : Type} (log : List (Event ε)) (d : Declaration) (f : Option ε) :
    declarations (log ++ [.register d f]) = declarations log ++ [d] := by
  simp [declarations, List.filterMap_append, Event.declaration?]

/-- A registration in a log is among its declarations. -/
theorem mem_declarations_of_mem {ε : Type} {log : List (Event ε)} {d : Declaration}
    {f : Option ε} (h : Event.register d f ∈ log) : d ∈ declarations log := by
  simp only [declarations, List.mem_filterMap]
  exact ⟨_, h, rfl⟩

/-- A declaration of a log was registered in it, with some answer. -/
theorem mem_of_mem_declarations {ε : Type} {log : List (Event ε)} {d : Declaration}
    (h : d ∈ declarations log) : ∃ f, Event.register d f ∈ log := by
  simp only [declarations, List.mem_filterMap] at h
  obtain ⟨ev, hev, hd⟩ := h
  cases ev with
  | invoke r => simp [Event.declaration?] at hd
  | register d' f =>
    simp only [Event.declaration?, Option.some.injEq] at hd
    exact ⟨f, hd ▸ hev⟩

/-- Acceptance in a log: a successful registration of the resource is in it. -/
theorem accepted_iff {ε : Type} (log : List (Event ε)) (r : Resource) :
    accepted log r = true ↔ ∃ d, Event.register d none ∈ log ∧ d.resource = r := by
  simp only [accepted, List.any_eq_true]
  constructor
  · rintro ⟨ev, hev, h⟩
    match ev, hev, h with
    | .register d none, hev, h => exact ⟨d, hev, by simpa using h⟩
  · rintro ⟨d, hd, rfl⟩
    exact ⟨_, hd, by simp⟩

/-- Acceptance is kept when the log grows. -/
theorem accepted_append {ε : Type} {log : List (Event ε)} {r : Resource} (more : List (Event ε))
    (h : accepted log r = true) : accepted (log ++ more) r = true := by
  rw [accepted_iff] at h ⊢
  obtain ⟨d, hd, hr⟩ := h
  exact ⟨d, List.mem_append_left _ hd, hr⟩

namespace pulumi

/-- A registration that is over stays over when a request runs. -/
theorem Settlement.settled_deliver {ε : Type} (E : Engine ε) {st : Settlement ε}
    {d' : Declaration} (d : Declaration) (h : st.settled d' = true) :
    (st.deliver E d).settled d' = true := by
  simp only [Settlement.settled, Bool.or_eq_true, decide_eq_true_eq] at h ⊢
  unfold Settlement.deliver
  split
  · rcases h with h | h
    · left
      rw [declarations_snoc]
      exact List.mem_append_left _ h
    · exact Or.inr h
  · rcases h with h | h
    · exact Or.inl h
    · exact Or.inr (List.mem_append_left _ h)

/-- A request that runs is over. -/
theorem Settlement.settled_deliver_self {ε : Type} (E : Engine ε) (st : Settlement ε)
    (d : Declaration) : (st.deliver E d).settled d = true := by
  simp only [Settlement.settled, Bool.or_eq_true, decide_eq_true_eq]
  unfold Settlement.deliver
  split
  · left
    rw [declarations_snoc]
    simp
  · right
    simp

/-- A registration that is over stays over when a request gets its turn. -/
theorem Settlement.settled_attempt {ε : Type} (E : Engine ε) (calls : List Declaration)
    {st : Settlement ε} {d' : Declaration} (d : Declaration) (h : st.settled d' = true) :
    (st.attempt E calls d).settled d' = true := by
  unfold Settlement.attempt
  split
  · exact Settlement.settled_deliver E d h
  · exact h

/-- A request that no longer waits is over after its turn. -/
theorem Settlement.settled_attempt_self {ε : Type} (E : Engine ε) (calls : List Declaration)
    (st : Settlement ε) (d : Declaration) (hready : st.ready calls d = true) :
    (st.attempt E calls d).settled d = true := by
  unfold Settlement.attempt
  split
  · exact Settlement.settled_deliver_self E st d
  · rename_i h
    simp only [hready, and_true] at h
    simpa using h

/-- The invariant of the wait holds before any registration was sent. -/
theorem Settlement.Sound.init {ε : Type} (E : Engine ε) (calls : List Declaration)
    (log : List (Event ε)) (hlog : declarations log = []) :
    Settlement.Sound E calls ⟨log, []⟩ where
  sent_mem := by simp [hlog]
  nodup := by simp [hlog]
  awaited := by
    intro i d f h
    have := mem_declarations_of_mem (List.getElem?_mem h)
    simp [hlog] at this
  faithful := by
    intro i d f h
    have := mem_declarations_of_mem (List.getElem?_mem h)
    simp [hlog] at this
  justified := by simp

/-- The invariant of the wait is kept when a request of the program gets its turn. -/
theorem Settlement.Sound.attempt {ε : Type} {E : Engine ε} {calls : List Declaration}
    {st : Settlement ε} (h : Settlement.Sound E calls st) {d : Declaration} (hd : d ∈ calls) :
    Settlement.Sound E calls (st.attempt E calls d) := by
  unfold Settlement.attempt
  split
  case isFalse => exact h
  case isTrue hguard =>
    obtain ⟨hs, hready⟩ := hguard
    have hs' : d ∉ declarations st.log ∧ d ∉ st.withheld := by
      simpa [Settlement.settled] using hs
    have hfrozen : ∀ r ∈ d.references, ∀ d' ∈ calls, d'.resource = r → st.settled d' = true := by
      intro r hr d' hd' hres
      simp only [Settlement.ready, List.all_eq_true, Bool.or_eq_true, decide_eq_true_eq] at hready
      rcases hready r hr d' hd' with hne | hset
      · exact absurd hres hne
      · exact hset
    have hmono : ∀ d', st.settled d' = true → (st.deliver E d).settled d' = true :=
      fun d' hd' => Settlement.settled_deliver E d hd'
    by_cases hall : d.references.all (accepted st.log) = true
    · have hdel : st.deliver E d =
          ⟨st.log ++ [.register d (E.registerResource st.log d)], st.withheld⟩ := by
        simp [Settlement.deliver, hall]
      rw [hdel] at hmono ⊢
      refine ⟨?_, ?_, ?_, ?_, ?_⟩
      · intro d' hd'
        rw [declarations_snoc] at hd'
        rcases List.mem_append.1 hd' with h' | h'
        · exact h.sent_mem d' h'
        · simp only [List.mem_singleton] at h'
          exact h' ▸ hd
      · show (declarations (st.log ++ [_])).Nodup
        rw [declarations_snoc]
        exact List.Nodup.append h.nodup (List.nodup_singleton d) (by simpa using hs'.1)
      · intro i d' f hi r hr
        show accepted ((st.log ++ [_]).take i) r = true
        rcases Nat.lt_or_ge i st.log.length with hlt | hge
        · rw [List.take_append_of_le_length (Nat.le_of_lt hlt)]
          refine h.awaited i d' f ?_ r hr
          have : (st.log ++ [Event.register d (E.registerResource st.log d)])[i]? = st.log[i]? :=
            List.getElem?_append_left hlt
          exact this ▸ hi
        · have hi' : (st.log ++ [Event.register d (E.registerResource st.log d)])[i]? =
              some (Event.register d' f) := hi
          rw [List.getElem?_append_right hge] at hi'
          have hzero : i - st.log.length = 0 := by
            by_contra hne
            obtain ⟨k, hk⟩ := Nat.exists_eq_succ_of_ne_zero hne
            rw [hk] at hi'
            simp at hi'
          rw [hzero] at hi'
          simp only [List.getElem?_cons_zero, Option.some.injEq, Event.register.injEq] at hi'
          obtain ⟨rfl, -⟩ := hi'
          have hlen : i = st.log.length := by omega
          rw [hlen, List.take_left']
          · exact (List.all_eq_true.1 hall) r hr
          · rfl
      · intro i d' f hi
        show f = E.registerResource ((st.log ++ [_]).take i) d'
        rcases Nat.lt_or_ge i st.log.length with hlt | hge
        · rw [List.take_append_of_le_length (Nat.le_of_lt hlt)]
          refine h.faithful i d' f ?_
          have : (st.log ++ [Event.register d (E.registerResource st.log d)])[i]? = st.log[i]? :=
            List.getElem?_append_left hlt
          exact this ▸ hi
        · have hi' : (st.log ++ [Event.register d (E.registerResource st.log d)])[i]? =
              some (Event.register d' f) := hi
          rw [List.getElem?_append_right hge] at hi'
          have hzero : i - st.log.length = 0 := by
            by_contra hne
            obtain ⟨k, hk⟩ := Nat.exists_eq_succ_of_ne_zero hne
            rw [hk] at hi'
            simp at hi'
          rw [hzero] at hi'
          simp only [List.getElem?_cons_zero, Option.some.injEq, Event.register.injEq] at hi'
          obtain ⟨rfl, rfl⟩ := hi'
          have hlen : i = st.log.length := by omega
          rw [hlen, List.take_left']
          rfl
      · intro d0 hd0
        obtain ⟨hmem, r, hr, hacc, hfr⟩ := h.justified d0 hd0
        refine ⟨hmem, r, hr, ?_, fun d' hd' hres => hmono d' (hfr d' hd' hres)⟩
        show accepted (st.log ++ [_]) r = false
        by_contra hcon
        have hcon' : accepted (st.log ++ [Event.register d (E.registerResource st.log d)]) r
            = true := by simpa using hcon
        rw [accepted_iff] at hcon'
        obtain ⟨d1, hd1, hres⟩ := hcon'
        rcases List.mem_append.1 hd1 with h1 | h1
        · have : accepted st.log r = true := (accepted_iff _ _).2 ⟨d1, h1, hres⟩
          simp [hacc] at this
        · simp only [List.mem_singleton, Event.register.injEq] at h1
          obtain ⟨rfl, -⟩ := h1
          have := hfr d1 hd hres
          simp [hs] at this
    · have hdel : st.deliver E d = ⟨st.log, st.withheld ++ [d]⟩ := by
        simp [Settlement.deliver, hall]
      rw [hdel] at hmono ⊢
      refine ⟨h.sent_mem, h.nodup, h.awaited, h.faithful, ?_⟩
      intro d0 hd0
      rcases List.mem_append.1 hd0 with h0 | h0
      · obtain ⟨hmem, r, hr, hacc, hfr⟩ := h.justified d0 h0
        exact ⟨hmem, r, hr, hacc, fun d' hd' hres => hmono d' (hfr d' hd' hres)⟩
      · simp only [List.mem_singleton] at h0
        subst h0
        have : ∃ r ∈ d0.references, accepted st.log r = false := by
          by_contra hcon
          apply hall
          rw [List.all_eq_true]
          intro r hr
          by_contra hfalse
          exact hcon ⟨r, hr, by simpa using hfalse⟩
        obtain ⟨r, hr, hacc⟩ := this
        exact ⟨hd, r, hr, hacc, fun d' hd' hres => hmono d' (hfrozen r hr d' hd' hres)⟩

/-- The invariant of the wait is kept through any turns of requests of the program. -/
theorem Settlement.Sound.run {ε : Type} {E : Engine ε} {calls : List Declaration}
    (picks : List Declaration) (hpicks : ∀ d ∈ picks, d ∈ calls) {st : Settlement ε}
    (h : Settlement.Sound E calls st) : Settlement.Sound E calls (st.run E calls picks) := by
  induction picks generalizing st with
  | nil => exact h
  | cons d picks ih =>
    exact ih (fun d' hd' => hpicks d' (List.mem_cons_of_mem _ hd'))
      (h.attempt (hpicks d (List.mem_cons_self _ _)))

/-- A registration that is over stays over through any turns. -/
theorem Settlement.settled_run {ε : Type} (E : Engine ε) (calls : List Declaration)
    (picks : List Declaration) {st : Settlement ε} {d' : Declaration}
    (h : st.settled d' = true) : (st.run E calls picks).settled d' = true := by
  induction picks generalizing st with
  | nil => exact h
  | cons d picks ih => exact ih (Settlement.settled_attempt E calls d h)

/-- The turns of a run are turns of registrations of the program. -/
theorem turns_mem {ε : Type} (E : Engine ε) (calls : List Declaration) :
    ∀ d ∈ turns E calls, d ∈ calls := by
  intro d hd
  rcases List.mem_append.1 hd with h | h
  · simp only [List.mem_filterMap] at h
    obtain ⟨i, -, hi⟩ := h
    exact List.getElem?_mem hi
  · exact h

end pulumi

/-- After one more turn for each registration in program order, every
registration of the program is over. -/
theorem settled_after_turns {ε : Type} (E : Engine ε) (A : String) (calls : List Declaration)
    (hcalls : calls = programCalls A) (st : pulumi.Settlement ε) :
    ∀ d ∈ calls, (st.run E calls
      [lbUserDecl, lbAccessKeyDecl, pulumiStackUpdatersDecl, cicdUserMembershipDecl,
       pulumiStackUpdatersPolicyDecl A]).settled d = true := by
  intro d hd
  simp only [pulumi.Settlement.run, List.foldl_cons, List.foldl_nil]
  have h1 : (st.attempt E calls lbUserDecl).settled lbUserDecl = true :=
    pulumi.Settlement.settled_attempt_self E _ _ _ (by
      simp [pulumi.Settlement.ready, lbUserDecl, Declaration.references, Declaration.inputs,
        pulumi.StringInput.resource?])
  generalize hst1 : st.attempt E calls lbUserDecl = st1 at h1 ⊢
  have h2 : (st1.attempt E calls lbAccessKeyDecl).settled lbAccessKeyDecl = true :=
    pulumi.Settlement.settled_attempt_self E _ _ _ (by
      simpa [pulumi.Settlement.ready, hcalls, programCalls, lbUserDecl, lbAccessKeyDecl,
        pulumiStackUpdatersDecl, cicdUserMembershipDecl, pulumiStackUpdatersPolicyDecl,
        Declaration.references, Declaration.inputs, Declaration.resource,
        pulumi.StringInput.resource?] using h1)
  have h1' := pulumi.Settlement.settled_attempt E calls lbAccessKeyDecl h1
  generalize hst2 : st1.attempt E calls lbAccessKeyDecl = st2 at h2 h1' ⊢
  have h3 : (st2.attempt E calls pulumiStackUpdatersDecl).settled
      pulumiStackUpdatersDecl = true :=
    pulumi.Settlement.settled_attempt_self E _ _ _ (by
      simp [pulumi.Settlement.ready, pulumiStackUpdatersDecl, Declaration.references,
        Declaration.inputs, pulumi.StringInput.resource?])
  have h1'' := pulumi.Settlement.settled_attempt E calls pulumiStackUpdatersDecl h1'
  have h2' := pulumi.Settlement.settled_attempt E calls pulumiStackUpdatersDecl h2
  generalize hst3 : st2.attempt E calls pulumiStackUpdatersDecl = st3 at h3 h1'' h2' ⊢
  have h4 : (st3.attempt E calls cicdUserMembershipDecl).settled
      cicdUserMembershipDecl = true :=
    pulumi.Settlement.settled_attempt_self E _ _ _ (by
      simpa [pulumi.Settlement.ready, hcalls, programCalls, lbUserDecl, lbAccessKeyDecl,
        pulumiStackUpdatersDecl, cicdUserMembershipDecl, pulumiStackUpdatersPolicyDecl,
        Declaration.references, Declaration.inputs, Declaration.resource,
        pulumi.StringInput.resource?] using And.intro h3 h1'')
  have h1a := pulumi.Settlement.settled_attempt E calls cicdUserMembershipDecl h1''
  have h2a := pulumi.Settlement.settled_attempt E calls cicdUserMembershipDecl h2'
  have h3a := pulumi.Settlement.settled_attempt E calls cicdUserMembershipDecl h3
  generalize hst4 : st3.attempt E calls cicdUserMembershipDecl = st4 at h4 h1a h2a h3a ⊢
  have h5 : (st4.attempt E calls (pulumiStackUpdatersPolicyDecl A)).settled
      (pulumiStackUpdatersPolicyDecl A) = true :=
    pulumi.Settlement.settled_attempt_self E _ _ _ (by
      simpa [pulumi.Settlement.ready, hcalls, programCalls, lbUserDecl, lbAccessKeyDecl,
        pulumiStackUpdatersDecl, cicdUserMembershipDecl, pulumiStackUpdatersPolicyDecl,
        Declaration.references, Declaration.inputs, Declaration.resource,
        pulumi.StringInput.resource?] using h3a)
  have h1b := pulumi.Settlement.settled_attempt E calls (pulumiStackUpdatersPolicyDecl A) h1a
  have h2b := pulumi.Settlement.settled_attempt E calls (pulumiStackUpdatersPolicyDecl A) h2a
  have h3b := pulumi.Settlement.settled_attempt E calls (pulumiStackUpdatersPolicyDecl A) h3a
  have h4b := pulumi.Settlement.settled_attempt E calls (pulumiStackUpdatersPolicyDecl A) h4
  rw [hcalls] at hd
  simp only [programCalls, List.mem_cons, List.mem_singleton, List.not_mem_nil, or_false] at hd
  rcases hd with rfl | rfl | rfl | rfl | rfl
  · exact h1b
  · exact h2b
  · exact h3b
  · exact h4b
  · exact h5

/-- When the wait is over, every registration of the program is over. -/
theorem settled_programCalls {ε : Type} (E : Engine ε) (A : String) (log : List (Event ε)) :
    ∀ d ∈ programCalls A, (pulumi.waitForRPCs E (programCalls A) log).settled d = true := by
  intro d hd
  have h := settled_after_turns E A (programCalls A) rfl
    (pulumi.Settlement.run E (programCalls A) ⟨log, []⟩
      (E.schedule.filterMap fun i => (programCalls A)[i]?)) d hd
  have hsplit : pulumi.waitForRPCs E (programCalls A) log =
      pulumi.Settlement.run E (programCalls A)
        (pulumi.Settlement.run E (programCalls A) ⟨log, []⟩
          (E.schedule.filterMap fun i => (programCalls A)[i]?)) (programCalls A) := by
    simp only [pulumi.waitForRPCs, pulumi.turns, pulumi.Settlement.run, List.foldl_append]
  rw [hsplit]
  exact h


/-! ## The runs of the driver -/

/-- A run in which identity resolution fails: the callback returns the error
after the invoke, and nothing is registered. -/
theorem main_of_identity_error {ε : Type} (E : Engine ε) (e : ε)
    (hid : E.getCallerIdentity [] = .error e) :
    main E = ⟨some e, [.invoke (.error e)], [.invoke (.error e)], []⟩ := by
  have hnone : E.schedule.filterMap (fun _ => (none : Option Declaration)) = [] := by
    simp
  simp [main, pulumi.Run, body, aws.GetCallerIdentity, hid, pulumi.waitForRPCs, pulumi.turns,
    pulumi.Settlement.run, declarations, Event.declaration?, hnone]

/-- A run in which identity resolution succeeds: the callback makes the five
registration calls, each returning `nil`, and returns `nil`; the engine receives
what the wait for the five registrations sends it. -/
theorem main_of_identity_ok {ε : Type} (E : Engine ε) (cur : aws.GetCallerIdentityResult)
    (hid : E.getCallerIdentity [] = .ok cur) :
    main E = ⟨none,
      [.invoke (.ok cur), .register lbUserDecl none, .register lbAccessKeyDecl none,
       .register pulumiStackUpdatersDecl none, .register cicdUserMembershipDecl none,
       .register (pulumiStackUpdatersPolicyDecl cur.AccountId) none],
      (pulumi.waitForRPCs E (programCalls cur.AccountId) [.invoke (.ok cur)]).log,
      (pulumi.waitForRPCs E (programCalls cur.AccountId) [.invoke (.ok cur)]).withheld⟩ := by
  simp [main, pulumi.Run, body, aws.GetCallerIdentity, hid, iam.NewUser, iam.NewAccessKey,
    iam.NewGroup, iam.NewGroupMembership, iam.NewGroupPolicy, pulumi.Context.RegisterResource,
    iam.User.Name, iam.Group.Name, Declaration.resource, declarations, Event.declaration?,
    programCalls, lbUserDecl, lbAccessKeyDecl, pulumiStackUpdatersDecl, cicdUserMembershipDecl,
    pulumiStackUpdatersPolicyDecl]

/-- The invariant of the wait holds when the wait of a run is over. -/
theorem sound_waitForRPCs {ε : Type} (E : Engine ε) (calls : List Declaration)
    (log : List (Event ε)) (hlog : declarations log = []) :
    pulumi.Settlement.Sound E calls (pulumi.waitForRPCs E calls log) :=
  pulumi.Settlement.Sound.run _ (pulumi.turns_mem E calls)
    (pulumi.Settlement.Sound.init E calls log hlog)

/-- The engine receives only declarations of the program. -/
theorem received_mem {ε : Type} (E : Engine ε) (cur : aws.GetCallerIdentityResult)
    (hid : E.getCallerIdentity [] = .ok cur) :
    ∀ d ∈ declarations (main E).received, d ∈ programCalls cur.AccountId := by
  rw [main_of_identity_ok E cur hid]
  exact (sound_waitForRPCs E (programCalls cur.AccountId) [.invoke (.ok cur)] rfl).sent_mem

/-- The engine receives no declaration twice. -/
theorem received_nodup {ε : Type} (E : Engine ε) : (declarations (main E).received).Nodup := by
  cases hid : E.getCallerIdentity [] with
  | error e => rw [main_of_identity_error E e hid]; simp [declarations, Event.declaration?]
  | ok cur =>
    rw [main_of_identity_ok E cur hid]
    exact (sound_waitForRPCs E (programCalls cur.AccountId) [.invoke (.ok cur)] rfl).nodup

/-- The engine receives a declaration only after it accepted every resource the
declaration references, and the answer recorded is the engine's. -/
theorem received_awaited {ε : Type} (E : Engine ε) (i : Nat) (d : Declaration) (f : Option ε)
    (hat : (main E).received[i]? = some (.register d f)) :
    (∀ r ∈ d.references, accepted ((main E).received.take i) r = true) ∧
    f = E.registerResource ((main E).received.take i) d := by
  cases hid : E.getCallerIdentity [] with
  | error e =>
    rw [main_of_identity_error E e hid] at hat
    rcases i with _ | i <;> simp at hat
  | ok cur =>
    rw [main_of_identity_ok E cur hid] at hat ⊢
    have hs := sound_waitForRPCs E (programCalls cur.AccountId) [.invoke (.ok cur)] rfl
    exact ⟨hs.awaited i d f hat, hs.faithful i d f hat⟩

/-- A declaration of the program reaches the engine exactly when every
resource it references is accepted. -/
theorem received_iff {ε : Type} (E : Engine ε) (cur : aws.GetCallerIdentityResult)
    (hid : E.getCallerIdentity [] = .ok cur) (d : Declaration)
    (hd : d ∈ programCalls cur.AccountId) :
    d ∈ declarations (main E).received ↔
      ∀ r ∈ d.references, accepted (main E).received r = true := by
  constructor
  · intro hmem r hr
    obtain ⟨f, hf⟩ := mem_of_mem_declarations hmem
    obtain ⟨i, hi⟩ := List.mem_iff_getElem?.1 hf
    have := (received_awaited E i d f hi).1 r hr
    have happ := accepted_append ((main E).received.drop i) this
    rwa [List.take_append_drop] at happ
  · intro hall
    have hset := settled_programCalls E cur.AccountId [.invoke (.ok cur)] d hd
    have hs := sound_waitForRPCs E (programCalls cur.AccountId) [.invoke (.ok cur)] rfl
    rw [main_of_identity_ok E cur hid] at hall ⊢
    simp only [pulumi.Settlement.settled, Bool.or_eq_true, decide_eq_true_eq] at hset
    rcases hset with h | h
    · exact h
    · obtain ⟨-, r, hr, hacc, -⟩ := hs.justified d h
      have := hall r hr
      simp [hacc] at this

/-- The registrations abandoned in a run are those of the program that did not
reach the engine. -/
theorem withheld_iff {ε : Type} (E : Engine ε) (cur : aws.GetCallerIdentityResult)
    (hid : E.getCallerIdentity [] = .ok cur) (d : Declaration) :
    d ∈ (main E).withheld ↔
      d ∈ programCalls cur.AccountId ∧ d ∉ declarations (main E).received := by
  have hs := sound_waitForRPCs E (programCalls cur.AccountId) [.invoke (.ok cur)] rfl
  constructor
  · intro hw
    have hw' : d ∈ (pulumi.waitForRPCs E (programCalls cur.AccountId)
        [.invoke (.ok cur)]).withheld := by
      rw [main_of_identity_ok E cur hid] at hw
      exact hw
    obtain ⟨hmem, r, hr, hacc, -⟩ := hs.justified d hw'
    refine ⟨hmem, fun hrec => ?_⟩
    have := (received_iff E cur hid d hmem).1 hrec r hr
    rw [main_of_identity_ok E cur hid] at this
    simp [hacc] at this
  · rintro ⟨hmem, hnot⟩
    have hset := settled_programCalls E cur.AccountId [.invoke (.ok cur)] d hmem
    rw [main_of_identity_ok E cur hid] at hnot ⊢
    simp only [pulumi.Settlement.settled, Bool.or_eq_true, decide_eq_true_eq] at hset
    rcases hset with h | h
    · exact absurd h hnot
    · exact h


/-- A declaration of the program is determined by its kind. -/
theorem eq_of_kind {A : String} {d : Declaration} (hd : d ∈ programCalls A) :
    (d.kind = .User → d = lbUserDecl) ∧ (d.kind = .AccessKey → d = lbAccessKeyDecl) ∧
    (d.kind = .Group → d = pulumiStackUpdatersDecl) ∧
    (d.kind = .GroupMembership → d = cicdUserMembershipDecl) ∧
    (d.kind = .GroupPolicy → d = pulumiStackUpdatersPolicyDecl A) := by
  simp only [programCalls, List.mem_cons, List.mem_singleton, List.not_mem_nil, or_false] at hd
  rcases hd with rfl | rfl | rfl | rfl | rfl <;>
    simp [Declaration.kind, Declaration.resource, lbUserDecl, lbAccessKeyDecl,
      pulumiStackUpdatersDecl, cicdUserMembershipDecl, pulumiStackUpdatersPolicyDecl]

/-- Acceptance of the user and of the group of the program, by the engine. -/
theorem accepted_received {ε : Type} (E : Engine ε) (cur : aws.GetCallerIdentityResult)
    (hid : E.getCallerIdentity [] = .ok cur) :
    (accepted (main E).received ⟨.User, "lbUser"⟩ = true ↔
      Event.register lbUserDecl none ∈ (main E).received) ∧
    (accepted (main E).received ⟨.Group, "pulumiStackUpdaters"⟩ = true ↔
      Event.register pulumiStackUpdatersDecl none ∈ (main E).received) := by
  constructor
  · rw [accepted_iff]
    constructor
    · rintro ⟨d, hd, hres⟩
      have hk : d.kind = .User := by rw [Declaration.kind, hres]
      have := (eq_of_kind (received_mem E cur hid d (mem_declarations_of_mem hd))).1 hk
      exact this ▸ hd
    · intro h
      exact ⟨_, h, rfl⟩
  · rw [accepted_iff]
    constructor
    · rintro ⟨d, hd, hres⟩
      have hk : d.kind = .Group := by rw [Declaration.kind, hres]
      have := (eq_of_kind (received_mem E cur hid d (mem_declarations_of_mem hd))).2.2.1 hk
      exact this ▸ hd
    · intro h
      exact ⟨_, h, rfl⟩

/-- Which declarations of the program reach the engine: the User and the
Group always; the AccessKey when the User was accepted; the GroupMembership
when the User and the Group were; the GroupPolicy when the Group was. -/
theorem reaches_engine {ε : Type} (E : Engine ε) (cur : aws.GetCallerIdentityResult)
    (hid : E.getCallerIdentity [] = .ok cur) :
    lbUserDecl ∈ declarations (main E).received ∧
    pulumiStackUpdatersDecl ∈ declarations (main E).received ∧
    (lbAccessKeyDecl ∈ declarations (main E).received ↔
      Event.register lbUserDecl none ∈ (main E).received) ∧
    (cicdUserMembershipDecl ∈ declarations (main E).received ↔
      Event.register lbUserDecl none ∈ (main E).received ∧
      Event.register pulumiStackUpdatersDecl none ∈ (main E).received) ∧
    (pulumiStackUpdatersPolicyDecl cur.AccountId ∈ declarations (main E).received ↔
      Event.register pulumiStackUpdatersDecl none ∈ (main E).received) := by
  obtain ⟨hu, hg⟩ := accepted_received E cur hid
  refine ⟨?_, ?_, ?_, ?_, ?_⟩
  · rw [received_iff E cur hid _ (by simp [programCalls])]
    simp [lbUserDecl, Declaration.references, Declaration.inputs, pulumi.StringInput.resource?]
  · rw [received_iff E cur hid _ (by simp [programCalls])]
    simp [pulumiStackUpdatersDecl, Declaration.references, Declaration.inputs,
      pulumi.StringInput.resource?]
  · rw [received_iff E cur hid _ (by simp [programCalls]), ← hu]
    simp [lbAccessKeyDecl, Declaration.references, Declaration.inputs,
      pulumi.StringInput.resource?]
  · rw [received_iff E cur hid _ (by simp [programCalls]), ← hu, ← hg]
    simp [cicdUserMembershipDecl, Declaration.references, Declaration.inputs,
      pulumi.StringInput.resource?, and_comm]
  · rw [received_iff E cur hid _ (by simp [programCalls]), ← hg]
    simp [pulumiStackUpdatersPolicyDecl, Declaration.references, Declaration.inputs,
      pulumi.StringInput.resource?]

/-- Against an engine that accepts every declaration, every answer in the
engine's log is an acceptance. -/
theorem accepted_of_accepting {ε : Type} (E : Engine ε)
    (haccept : ∀ t d, E.registerResource t d = none) {d : Declaration} {f : Option ε}
    (h : Event.register d f ∈ (main E).received) : f = none := by
  obtain ⟨i, hi⟩ := List.mem_iff_getElem?.1 h
  rw [(received_awaited E i d f hi).2, haccept]

/-- The registrations of the program, as the callback makes them. -/
theorem declarations_trace {ε : Type} (E : Engine ε) (cur : aws.GetCallerIdentityResult)
    (hid : E.getCallerIdentity [] = .ok cur) :
    declarations (main E).trace = programCalls cur.AccountId := by
  rw [main_of_identity_ok E cur hid]
  simp [declarations, Event.declaration?, programCalls]

/-! ## The claims about the driver -/

/-- C4: if caller-identity resolution fails, the driver submits no resource
declaration at all, whatever the engine would have answered to one, and the
run ends in failure (with the error of the identity resolution). -/
theorem identity_failure_declares_nothing {ε : Type} (E : Engine ε) (e : ε)
    (hid : E.getCallerIdentity [] = .error e) :
    declarations (main E).trace = [] ∧ (main E).trace = [.invoke (.error e)] ∧
    (main E).failed = true ∧ (main E).err = some e ∧
    declarations (main E).received = [] := by
  rw [main_of_identity_error E e hid]
  simp [declarations, Event.declaration?, RunResult.failed]

/-- Witness of C4: an engine without credentials that would accept every declaration. -/
theorem identity_failure_declares_nothing_witness :
    noIdentity.getCallerIdentity [] = .error "no credentials" ∧
    declarations (main noIdentity).trace = [] ∧ (main noIdentity).failed = true :=
  ⟨rfl, (identity_failure_declares_nothing noIdentity "no credentials" rfl).1,
    (identity_failure_declares_nothing noIdentity "no credentials" rfl).2.2.1⟩

/-- C6: against an engine that resolves the identity to account `A` and
accepts every declaration, one run submits exactly five declarations, in this
order: the User `Jenkins-pulumi-bot` with path `/system/`, an AccessKey whose
user is that User's name, the Group `pulumiStackUpdaters`, a GroupMembership of
that Group whose user list holds exactly that User, and a GroupPolicy on that
Group whose document is `SetPolicy A`; the run returns success. The engine
receives these five, each once, in an order that depends on the schedule. -/
theorem accepting_engine_declares_five {ε : Type} (E : Engine ε) (A : String)
    (hid : E.getCallerIdentity [] = .ok ⟨A⟩)
    (haccept : ∀ t d, E.registerResource t d = none) :
    declarations (main E).trace =
      [.User "lbUser"
         { Name := .String "Jenkins-pulumi-bot"
           Path := .String "/system/"
           Tags := [("purpose",
             .String "Account used to perform Pulumi stack updates on CI/CD.")] },
       .AccessKey "lbAccessKey" { User := .output ⟨.User, "lbUser"⟩ "name" },
       .Group "pulumiStackUpdaters" { Name := .String "pulumiStackUpdaters" },
       .GroupMembership "cicdUserMembership"
         { Group := .output ⟨.Group, "pulumiStackUpdaters"⟩ "name"
           Name := .String "cicdUserMembership"
           Users := [.output ⟨.User, "lbUser"⟩ "name"] },
       .GroupPolicy "pulumiStackUpdatersPolicy"
         { Group := .output ⟨.Group, "pulumiStackUpdaters"⟩ "name"
           Name := .String "pulumiStackUpdatersPolicy"
           Policy := .String (SetPolicy A) }] ∧
    (main E).err = none ∧ (main E).failed = false ∧
    (declarations (main E).received).Perm (declarations (main E).trace) := by
  obtain ⟨hu, hg, hkey, hgm, hgp⟩ := reaches_engine E ⟨A⟩ hid
  have hok : ∀ d, d ∈ declarations (main E).received →
      Event.register d none ∈ (main E).received := by
    intro d hd
    obtain ⟨f, hf⟩ := mem_of_mem_declarations hd
    exact accepted_of_accepting E haccept hf ▸ hf
  have hall : ∀ d ∈ programCalls A, d ∈ declarations (main E).received := by
    intro d hd
    simp only [programCalls, List.mem_cons, List.mem_singleton, List.not_mem_nil,
      or_false] at hd
    rcases hd with rfl | rfl | rfl | rfl | rfl
    · exact hu
    · exact hkey.2 (hok _ hu)
    · exact hg
    · exact hgm.2 ⟨hok _ hu, hok _ hg⟩
    · exact hgp.2 (hok _ hg)
  have htrace := declarations_trace E ⟨A⟩ hid
  refine ⟨?_, ?_, ?_, ?_⟩
  · rw [htrace]
    rfl
  · rw [main_of_identity_ok E ⟨A⟩ hid]
  · have herr : (main E).err = none := by rw [main_of_identity_ok E ⟨A⟩ hid]
    have hrej : (main E).received.any Event.rejected = false := by
      rw [List.any_eq_false]
      intro ev hev
      cases ev with
      | invoke r => simp [Event.rejected]
      | register d f =>
        rw [accepted_of_accepting E haccept hev]
        simp [Event.rejected]
    have hwith : (main E).withheld = [] := by
      rw [List.eq_nil_iff_forall_not_mem]
      intro d hd
      obtain ⟨hmem, hnot⟩ := (withheld_iff E ⟨A⟩ hid d).1 hd
      exact hnot (hall d hmem)
    simp [RunResult.failed, herr, hrej, hwith]
  · rw [List.perm_ext_iff_of_nodup (received_nodup E) (by rw [htrace]; simp [programCalls,
      lbUserDecl, lbAccessKeyDecl, pulumiStackUpdatersDecl, cicdUserMembershipDecl,
      pulumiStackUpdatersPolicyDecl])]
    intro d
    rw [htrace]
    exact ⟨received_mem E ⟨A⟩ hid d, hall d⟩

/-- Witness of C6: the engine that accepts everything, for account `123456789012`. -/
theorem accepting_engine_declares_five_witness :
    (acceptAll "123456789012").getCallerIdentity [] = .ok ⟨"123456789012"⟩ ∧
    (∀ t d, (acceptAll "123456789012").registerResource t d = none) ∧
    (declarations (main (acceptAll "123456789012")).trace).length = 5 ∧
    (main (acceptAll "123456789012")).err = none :=
  ⟨rfl, fun _ _ => rfl,
    by rw [(accepting_engine_declares_five (acceptAll "123456789012") "123456789012" rfl
      fun _ _ => rfl).1]; rfl,
    (accepting_engine_declares_five (acceptAll "123456789012") "123456789012" rfl
      fun _ _ => rfl).2.1⟩

end CICD
